import Mathlib

/-!
Verification of the virtual-linker core of `obsidian-virtual-linker`.

The repository has two parallel CodeMirror view plugins,
`src/linker/liveLinker.ts` and `src/glossary/liveLinker.ts`.  Each one
scans the visible text with a streaming prefix automaton, collects raw
match candidates, sorts them by `(from ascending, to descending)`,
deletes overlapping candidates, and finally filters the survivors
against structural exclusion zones (an interval tree over syntax nodes),
the cursor position and, for the linker variant, the current line.

This file embeds those algorithms shallowly:

* `Addition`, `Linker.*`, `Glossary.*` — the candidate records and the
  sort / mark / filter overlap resolution, transcribed from each file.
* `NodeInfo`, `buildZones`, `searchHits`, `emitOne`, `emitAdditions` —
  the structural/cursor/line exclusion stage of
  `AutoLinkerPlugin.buildDecorations` (linker variant).
* `codePointAt`, `positionsFrom`, `scanLoop` — the character scan loop
  of `buildDecorations`, with UTF-16 code-unit decoding.
* `pushChar`, `getCurrentMatchNodes`, `checkWordBoundary`,
  `updateCache` — parts of `linkerCache.ts`, which is not under `src/`;
  these are modelled from the specification text and marked as such.
* `updateView` — the linker variant's `AutoLinkerPlugin.update`.
-/

/-- A match candidate as pushed into the `additions` array of
`buildDecorations`: a running id, and the global `from`/`to` character
offsets of the matched span (the widget payload is presentation and is
not part of the matching logic). -/
structure Addition where
  id : Nat
  fromPos : Nat
  toPos : Nat
deriving DecidableEq, Repr

/-- Two half-open spans `[s.1, s.2)` and `[t.1, t.2)` intersect. -/
def spansOverlap (s t : Nat × Nat) : Bool :=
  decide (max s.1 t.1 < min s.2 t.2)

namespace Linker

/-- The comparator of `additions.sort` in `src/linker/liveLinker.ts`:
by `from` ascending and, among equal `from`, by `to` descending. -/
def addLE (a b : Addition) : Prop :=
  a.fromPos < b.fromPos ∨ (a.fromPos = b.fromPos ∧ b.toPos ≤ a.toPos)

instance : DecidableRel addLE := fun a b =>
  inferInstanceAs (Decidable (a.fromPos < b.fromPos ∨
    (a.fromPos = b.fromPos ∧ b.toPos ≤ a.toPos)))

/-- The inner `j` loop of the overlap-deletion pass: starting after the
current addition, record the id of every later addition whose `from` is
smaller than the current addition's `to`, stopping at the first
non-overlapping one (`if (otherAddition.from >= addition.to) break`). -/
def innerMark (stop : Nat) : List Addition → List Nat
  | [] => []
  | a :: tl => if stop ≤ a.fromPos then [] else a.id :: innerMark stop tl

/-- The outer `i` loop of the overlap-deletion pass: every addition, in
sorted order, marks its overlapping successors (whether or not it was
itself marked). -/
def outerMark : List Addition → List Nat
  | [] => []
  | a :: tl => innerMark a.toPos tl ++ outerMark tl

/-- The final pass building `filteredAdditions`: keep, in order, every
addition whose id was never put into `additionsToDelete`. -/
def filterMarked (adds : List Addition) : List Addition :=
  adds.filter fun a => !(decide (a.id ∈ outerMark adds))

/-- Sorting the additions array with the `(from asc, to desc)`
comparator (JavaScript's `Array.prototype.sort` is stable, as is
insertion sort with a total preorder). -/
def sortAdds (adds : List Addition) : List Addition :=
  adds.insertionSort addLE

/-- Assignment of the running `id` counter: candidates receive ids
`0, 1, 2, …` in the order they are pushed during the scan. -/
def enumAdds (spans : List (Nat × Nat)) : List Addition :=
  spans.enum.map fun p => ⟨p.1, p.2.1, p.2.2⟩

/-- The complete overlap-resolution step of
`AutoLinkerPlugin.buildDecorations` in `src/linker/liveLinker.ts`
(lines 224-254), as a function from raw candidate spans (in scan order)
to surviving spans. -/
def resolveOverlaps (spans : List (Nat × Nat)) : List (Nat × Nat) :=
  (filterMarked (sortAdds (enumAdds spans))).map fun a => (a.fromPos, a.toPos)

end Linker

namespace Glossary

/-- The comparator of `additions.sort` in `src/glossary/liveLinker.ts`:
by `from` ascending and, among equal `from`, by `to` descending. -/
def addLE (a b : Addition) : Prop :=
  a.fromPos < b.fromPos ∨ (a.fromPos = b.fromPos ∧ b.toPos ≤ a.toPos)

instance : DecidableRel addLE := fun a b =>
  inferInstanceAs (Decidable (a.fromPos < b.fromPos ∨
    (a.fromPos = b.fromPos ∧ b.toPos ≤ a.toPos)))

/-- The inner `j` loop of the overlap-deletion pass of the glossary
variant (identical text to the linker variant). -/
def innerMark (stop : Nat) : List Addition → List Nat
  | [] => []
  | a :: tl => if stop ≤ a.fromPos then [] else a.id :: innerMark stop tl

/-- The outer `i` loop of the overlap-deletion pass of the glossary
variant. -/
def outerMark : List Addition → List Nat
  | [] => []
  | a :: tl => innerMark a.toPos tl ++ outerMark tl

/-- The `filteredAdditions` pass of the glossary variant. -/
def filterMarked (adds : List Addition) : List Addition :=
  adds.filter fun a => !(decide (a.id ∈ outerMark adds))

/-- Sorting the additions array in the glossary variant. -/
def sortAdds (adds : List Addition) : List Addition :=
  adds.insertionSort addLE

/-- Id assignment in the glossary variant's scan. -/
def enumAdds (spans : List (Nat × Nat)) : List Addition :=
  spans.enum.map fun p => ⟨p.1, p.2.1, p.2.2⟩

/-- The complete overlap-resolution step of
`AutoLinkerPlugin.buildDecorations` in `src/glossary/liveLinker.ts`
(lines 151-179). -/
def resolveOverlaps (spans : List (Nat × Nat)) : List (Nat × Nat) :=
  (filterMarked (sortAdds (enumAdds spans))).map fun a => (a.fromPos, a.toPos)

end Glossary

example : Linker.resolveOverlaps [(0,5),(2,8),(6,7)] = [(0,5)] := by decide
example : Linker.resolveOverlaps [(10,12),(0,5),(2,4)] = [(0,5),(10,12)] := by decide
example : Linker.resolveOverlaps [(1,3),(1,4)] = [(1,4)] := by decide

namespace Linker

/-- Transparent rendering of the deletion pass on the sorted candidate
list: a candidate is kept iff every candidate processed before it —
whether that earlier candidate was itself kept or already marked for
deletion — ends at or before the candidate's start (`from ≥` every
earlier `to`, i.e. the negation of the marking condition
`otherAddition.from < addition.to`).  `prev` accumulates the processed
prefix. -/
def keepAll (prev : List Addition) : List Addition → List Addition
  | [] => []
  | a :: tl =>
    if prev.all fun p => decide (p.toPos ≤ a.fromPos) then
      a :: keepAll (prev ++ [a]) tl
    else
      keepAll (prev ++ [a]) tl

theorem innerMark_mem_elim {stop k : Nat} {l : List Addition}
    (h : k ∈ innerMark stop l) : ∃ c ∈ l, c.id = k ∧ c.fromPos < stop := by
  induction l with
  | nil => simp [innerMark] at h
  | cons a tl ih =>
    rw [innerMark] at h
    by_cases hs : stop ≤ a.fromPos
    · rw [if_pos hs] at h
      exact absurd h (List.not_mem_nil k)
    · rw [if_neg hs] at h
      rcases List.mem_cons.mp h with h1 | h2
      · exact ⟨a, List.mem_cons_self a tl, h1.symm, Nat.lt_of_not_le hs⟩
      · obtain ⟨c, hc1, hc2, hc3⟩ := ih h2
        exact ⟨c, List.mem_cons_of_mem a hc1, hc2, hc3⟩

theorem outerMark_mem_elim {k : Nat} {l : List Addition}
    (h : k ∈ outerMark l) : ∃ c ∈ l, c.id = k := by
  induction l with
  | nil => simp [outerMark] at h
  | cons a tl ih =>
    rw [outerMark] at h
    rcases List.mem_append.mp h with h1 | h2
    · obtain ⟨c, hc1, hc2, _⟩ := innerMark_mem_elim h1
      exact ⟨c, List.mem_cons_of_mem a hc1, hc2⟩
    · obtain ⟨c, hc1, hc2⟩ := ih h2
      exact ⟨c, List.mem_cons_of_mem a hc1, hc2⟩

theorem innerMark_cons_tail_iff {t : Nat} {a b : Addition} {tl : List Addition}
    (hb : b ∈ tl) (hba : b.id ≠ a.id) (hab : a.fromPos ≤ b.fromPos)
    (hnodtail : (tl.map Addition.id).Nodup) :
    (b.id ∈ innerMark t (a :: tl) ↔ b.id ∈ innerMark t tl) := by
  rw [innerMark]
  by_cases hs : t ≤ a.fromPos
  · rw [if_pos hs]
    constructor
    · intro h; exact absurd h (List.not_mem_nil _)
    · intro h
      obtain ⟨c, hc1, hc2, hc3⟩ := innerMark_mem_elim h
      have hcb : c = b := List.inj_on_of_nodup_map hnodtail hc1 hb hc2
      subst hcb
      omega
  · rw [if_neg hs]
    constructor
    · intro h
      rcases List.mem_cons.mp h with h1 | h2
      · exact absurd h1 hba
      · exact h2
    · intro h; exact List.mem_cons_of_mem _ h

theorem filter_marks_eq_keepAll :
    ∀ (tl prev : List Addition),
      tl.Pairwise (fun x y => x.fromPos ≤ y.fromPos) →
      (tl.map Addition.id).Nodup →
      (tl.filter fun a =>
        !(decide (a.id ∈
          prev.flatMap (fun p => innerMark p.toPos tl) ++ outerMark tl))) =
      keepAll prev tl := by
  intro tl
  induction tl with
  | nil => intro prev _ _; rfl
  | cons a tl ih =>
    intro prev hsort hnodup
    have hfromtail : tl.Pairwise (fun x y => x.fromPos ≤ y.fromPos) :=
      hsort.of_cons
    have hhead : ∀ b ∈ tl, a.fromPos ≤ b.fromPos :=
      fun b hb => List.rel_of_pairwise_cons hsort hb
    have hmapcons : ((a :: tl).map Addition.id) = a.id :: tl.map Addition.id :=
      List.map_cons Addition.id a tl
    have hidnot : a.id ∉ tl.map Addition.id := by
      rw [hmapcons] at hnodup
      exact (List.nodup_cons.mp hnodup).1
    have hnodtail : (tl.map Addition.id).Nodup := by
      rw [hmapcons] at hnodup
      exact (List.nodup_cons.mp hnodup).2
    -- the head is marked exactly when some already processed candidate
    -- still overlaps it
    have hmarksA :
        (a.id ∈ prev.flatMap (fun p => innerMark p.toPos (a :: tl)) ++
          outerMark (a :: tl)) ↔ ¬ (∀ p ∈ prev, p.toPos ≤ a.fromPos) := by
      constructor
      · intro h
        rcases List.mem_append.mp h with h1 | h2
        · obtain ⟨p, hp, hmem⟩ := List.mem_flatMap.mp h1
          rw [innerMark] at hmem
          by_cases hs : p.toPos ≤ a.fromPos
          · rw [if_pos hs] at hmem
            exact absurd hmem (List.not_mem_nil _)
          · exact fun hall => hs (hall p hp)
        · exfalso
          rw [outerMark] at h2
          rcases List.mem_append.mp h2 with h3 | h4
          · obtain ⟨c, hc1, hc2, _⟩ := innerMark_mem_elim h3
            exact hidnot (hc2 ▸ List.mem_map_of_mem Addition.id hc1)
          · obtain ⟨c, hc1, hc2⟩ := outerMark_mem_elim h4
            exact hidnot (hc2 ▸ List.mem_map_of_mem Addition.id hc1)
      · intro h
        have h' : ∃ p ∈ prev, a.fromPos < p.toPos := by simpa using h
        obtain ⟨p, hpmem, hps'⟩ := h'
        have hps : ¬ (p.toPos ≤ a.fromPos) := Nat.not_le.mpr hps'
        refine List.mem_append.mpr (Or.inl ?_)
        refine List.mem_flatMap.mpr ⟨p, hpmem, ?_⟩
        rw [innerMark, if_neg hps]
        exact List.mem_cons_self _ _
    -- the tail filter predicates coincide after absorbing the head into
    -- the processed prefix
    have htail :
        (tl.filter fun b =>
          !(decide (b.id ∈
            prev.flatMap (fun p => innerMark p.toPos (a :: tl)) ++
              outerMark (a :: tl)))) =
        (tl.filter fun b =>
          !(decide (b.id ∈
            (prev ++ [a]).flatMap (fun p => innerMark p.toPos tl) ++
              outerMark tl))) := by
      refine List.filter_congr ?_
      intro b hb
      have hba : b.id ≠ a.id := by
        intro heq
        exact hidnot (heq ▸ List.mem_map_of_mem Addition.id hb)
      have hiff : (b.id ∈
          prev.flatMap (fun p => innerMark p.toPos (a :: tl)) ++
            outerMark (a :: tl)) ↔
          (b.id ∈
          (prev ++ [a]).flatMap (fun p => innerMark p.toPos tl) ++
            outerMark tl) := by
        rw [outerMark]
        constructor
        · intro h
          rcases List.mem_append.mp h with h1 | h2
          · obtain ⟨p, hp, hmem⟩ := List.mem_flatMap.mp h1
            have : b.id ∈ innerMark p.toPos tl :=
              (innerMark_cons_tail_iff hb hba (hhead b hb) hnodtail).mp hmem
            exact List.mem_append.mpr (Or.inl (List.mem_flatMap.mpr
              ⟨p, List.mem_append_left _ hp, this⟩))
          · rcases List.mem_append.mp h2 with h3 | h4
            · exact List.mem_append.mpr (Or.inl (List.mem_flatMap.mpr
                ⟨a, List.mem_append_right _ (List.mem_singleton_self a), h3⟩))
            · exact List.mem_append.mpr (Or.inr h4)
        · intro h
          rcases List.mem_append.mp h with h1 | h2
          · obtain ⟨p, hp, hmem⟩ := List.mem_flatMap.mp h1
            rcases List.mem_append.mp hp with hp1 | hp2
            · refine List.mem_append.mpr (Or.inl (List.mem_flatMap.mpr
                ⟨p, hp1, ?_⟩))
              exact (innerMark_cons_tail_iff hb hba (hhead b hb) hnodtail).mpr
                hmem
            · have hpa : p = a := List.mem_singleton.mp hp2
              subst hpa
              exact List.mem_append.mpr (Or.inr (List.mem_append_left _ hmem))
          · exact List.mem_append.mpr (Or.inr (List.mem_append_right _ h2))
      rw [decide_eq_decide.mpr hiff]
    rw [List.filter_cons, keepAll]
    by_cases hall : ∀ p ∈ prev, p.toPos ≤ a.fromPos
    · have hcond : (prev.all fun p => decide (p.toPos ≤ a.fromPos)) = true :=
        List.all_eq_true.mpr fun p hp => decide_eq_true (hall p hp)
      have hpred : (!(decide (a.id ∈
          prev.flatMap (fun p => innerMark p.toPos (a :: tl)) ++
            outerMark (a :: tl)))) = true := by
        simp only [Bool.not_eq_true', decide_eq_false_iff_not]
        exact fun hmem => (hmarksA.mp hmem) hall
      rw [if_pos hpred, if_pos hcond, htail]
      exact congrArg (a :: ·) (ih (prev ++ [a]) hfromtail hnodtail)
    · have hcond : ¬ ((prev.all fun p => decide (p.toPos ≤ a.fromPos)) = true) := by
        intro hc
        exact hall fun p hp => of_decide_eq_true (List.all_eq_true.mp hc p hp)
      have hpred : ¬ ((!(decide (a.id ∈
          prev.flatMap (fun p => innerMark p.toPos (a :: tl)) ++
            outerMark (a :: tl)))) = true) := by
        simp only [Bool.not_eq_true', decide_eq_false_iff_not, not_not]
        exact hmarksA.mpr hall
      rw [if_neg hpred, if_neg hcond, htail]
      exact ih (prev ++ [a]) hfromtail hnodtail

theorem filterMarked_eq_keepAll {l : List Addition}
    (hsort : l.Pairwise (fun x y => x.fromPos ≤ y.fromPos))
    (hnodup : (l.map Addition.id).Nodup) :
    filterMarked l = keepAll [] l := by
  have h := filter_marks_eq_keepAll l [] hsort hnodup
  simpa [filterMarked] using h

instance : IsTotal Addition addLE :=
  ⟨fun a b => by unfold addLE; omega⟩

instance : IsTrans Addition addLE :=
  ⟨fun a b c => by unfold addLE; omega⟩

theorem sortAdds_pairwise_addLE (adds : List Addition) :
    (sortAdds adds).Pairwise addLE :=
  List.sorted_insertionSort addLE adds

theorem sortAdds_pairwise_fromLE (adds : List Addition) :
    (sortAdds adds).Pairwise (fun x y => x.fromPos ≤ y.fromPos) :=
  (sortAdds_pairwise_addLE adds).imp (fun hab => by unfold addLE at hab; omega)

theorem sortAdds_perm (adds : List Addition) : (sortAdds adds).Perm adds :=
  List.perm_insertionSort addLE adds

theorem enumAdds_ids (spans : List (Nat × Nat)) :
    (enumAdds spans).map Addition.id = spans.enum.map Prod.fst := by
  unfold enumAdds
  rw [List.map_map]
  rfl

theorem sortAdds_ids_nodup (spans : List (Nat × Nat)) :
    ((sortAdds (enumAdds spans)).map Addition.id).Nodup := by
  have hperm : ((sortAdds (enumAdds spans)).map Addition.id).Perm
      ((enumAdds spans).map Addition.id) :=
    (sortAdds_perm (enumAdds spans)).map Addition.id
  refine hperm.nodup_iff.mpr ?_
  rw [enumAdds_ids]
  exact List.nodup_enum_map_fst spans

theorem resolveOverlaps_eq_keepAll (spans : List (Nat × Nat)) :
    resolveOverlaps spans =
      (keepAll [] (sortAdds (enumAdds spans))).map fun a =>
        (a.fromPos, a.toPos) := by
  unfold resolveOverlaps
  rw [filterMarked_eq_keepAll (sortAdds_pairwise_fromLE _)
    (sortAdds_ids_nodup _)]

theorem keepAll_mem_prev_le :
    ∀ {l prev : List Addition} {b : Addition},
      b ∈ keepAll prev l → ∀ x ∈ prev, x.toPos ≤ b.fromPos := by
  intro l
  induction l with
  | nil => intro prev b h; exact absurd h (List.not_mem_nil b)
  | cons a tl ih =>
    intro prev b h
    rw [keepAll] at h
    by_cases hc : (prev.all fun p => decide (p.toPos ≤ a.fromPos)) = true
    · rw [if_pos hc] at h
      rcases List.mem_cons.mp h with rfl | h2
      · exact fun x hx => of_decide_eq_true (List.all_eq_true.mp hc x hx)
      · exact fun x hx => ih h2 x (List.mem_append_left _ hx)
    · rw [if_neg hc] at h
      exact fun x hx => ih h x (List.mem_append_left _ hx)

theorem keepAll_sublist :
    ∀ (l prev : List Addition), (keepAll prev l).Sublist l := by
  intro l
  induction l with
  | nil => intro prev; simp [keepAll]
  | cons a tl ih =>
    intro prev
    rw [keepAll]
    by_cases hc : (prev.all fun p => decide (p.toPos ≤ a.fromPos)) = true
    · rw [if_pos hc]; exact (ih (prev ++ [a])).cons₂ a
    · rw [if_neg hc]; exact (ih (prev ++ [a])).cons a

theorem keepAll_pairwise :
    ∀ {l : List Addition}, l.Pairwise (fun x y => x.fromPos ≤ y.fromPos) →
      ∀ (prev : List Addition),
      (keepAll prev l).Pairwise
        (fun x y => x.fromPos ≤ y.fromPos ∧ x.toPos ≤ y.fromPos) := by
  intro l
  induction l with
  | nil => intro _ prev; simp [keepAll]
  | cons a tl ih =>
    intro hsort prev
    rw [keepAll]
    by_cases hc : (prev.all fun p => decide (p.toPos ≤ a.fromPos)) = true
    · rw [if_pos hc]
      refine List.Pairwise.cons ?_ (ih hsort.of_cons (prev ++ [a]))
      intro b hb
      constructor
      · exact List.rel_of_pairwise_cons hsort
          ((keepAll_sublist tl (prev ++ [a])).subset hb)
      · exact keepAll_mem_prev_le hb a
          (List.mem_append_right _ (List.mem_singleton_self a))
    · rw [if_neg hc]
      exact ih hsort.of_cons (prev ++ [a])

theorem keepAll_of_prefix_le :
    ∀ {l1 : List Addition} {a : Addition} {l2 prev : List Addition},
      (∀ x ∈ prev ++ l1, x.toPos ≤ a.fromPos) →
      a ∈ keepAll prev (l1 ++ a :: l2) := by
  intro l1
  induction l1 with
  | nil =>
    intro a l2 prev h
    rw [List.nil_append, keepAll]
    have hc : (prev.all fun p => decide (p.toPos ≤ a.fromPos)) = true := by
      refine List.all_eq_true.mpr fun p hp => decide_eq_true ?_
      exact h p (by simpa using hp)
    rw [if_pos hc]
    exact List.mem_cons_self _ _
  | cons x l1' ih =>
    intro a l2 prev h
    rw [List.cons_append, keepAll]
    have hrec : ∀ y ∈ (prev ++ [x]) ++ l1', y.toPos ≤ a.fromPos := by
      intro y hy
      apply h
      simpa [List.append_assoc] using hy
    by_cases hc : (prev.all fun p => decide (p.toPos ≤ x.fromPos)) = true
    · rw [if_pos hc]
      exact List.mem_cons_of_mem _ (ih hrec)
    · rw [if_neg hc]
      exact ih hrec

theorem keepAll_mem_split :
    ∀ {l prev : List Addition} {b : Addition}, b ∈ keepAll prev l →
      ∃ l1 l2, l = l1 ++ b :: l2 ∧ ∀ x ∈ prev ++ l1, x.toPos ≤ b.fromPos := by
  intro l
  induction l with
  | nil => intro prev b h; exact absurd h (List.not_mem_nil b)
  | cons a tl ih =>
    intro prev b h
    rw [keepAll] at h
    by_cases hc : (prev.all fun p => decide (p.toPos ≤ a.fromPos)) = true
    · rw [if_pos hc] at h
      rcases List.mem_cons.mp h with rfl | h2
      · refine ⟨[], tl, rfl, ?_⟩
        intro x hx
        exact of_decide_eq_true (List.all_eq_true.mp hc x (by simpa using hx))
      · obtain ⟨l1, l2, heq, hle⟩ := ih h2
        refine ⟨a :: l1, l2, by rw [heq, List.cons_append], ?_⟩
        intro x hx
        apply hle
        simpa [List.append_assoc] using hx
    · rw [if_neg hc] at h
      obtain ⟨l1, l2, heq, hle⟩ := ih h
      refine ⟨a :: l1, l2, by rw [heq, List.cons_append], ?_⟩
      intro x hx
      apply hle
      simpa [List.append_assoc] using hx

end Linker

/-- A syntax-tree node as seen by the `syntaxTree(view.state).iterate`
callback of `buildDecorations`: its type name and its range. -/
structure NodeInfo where
  typeName : String
  nodeFrom : Nat
  nodeTo : Nat
deriving DecidableEq

/-- Substring test on character lists: does the needle occur
contiguously in the haystack? -/
def containsList (needle : List Char) : List Char → Bool
  | [] => needle.isEmpty
  | h :: t => needle.isPrefixOf (h :: t) || containsList needle t

/-- JavaScript's `hay.contains(needle)` (Obsidian's alias of
`String.prototype.includes`), applied by `buildDecorations` to
syntax-node type names. -/
def containsSub (hay needle : String) : Bool :=
  containsList needle.data hay.data

/-- The `excludedTypes` array of `src/linker/liveLinker.ts`:
`"header-"` is pushed when `includeHeaders` is off. -/
def excludedTypes (includeHeaders : Bool) : List String :=
  ["codeblock", "code-block", "internal-link", "link"] ++
    (if includeHeaders then [] else ["header-"])

/-- The intervals inserted into `excludedIntervalTree`: for every
visited syntax node, one `[node.from, node.to]` interval per excluded
type string contained in the node's type name. -/
def buildZones (includeHeaders : Bool) (nodes : List NodeInfo) :
    List (Nat × Nat) :=
  nodes.flatMap fun n =>
    ((excludedTypes includeHeaders).filter fun et =>
      containsSub n.typeName et).map fun _ => (n.nodeFrom, n.nodeTo)

/-- `excludedIntervalTree.search([from, to])` of
`@flatten-js/interval-tree`: stored intervals are closed, and the
search returns every stored `[z.1, z.2]` intersecting the closed query
interval (two closed intervals miss each other iff `z.2 < from` or
`to < z.1`). -/
def searchHits (zones : List (Nat × Nat)) (f t : Nat) : List (Nat × Nat) :=
  zones.filter fun z => decide (z.1 ≤ t) && decide (f ≤ z.2)

/-- The per-range context of the final filtering loop of
`buildDecorations`: the exclusion intervals, the cursor offset,
`viewIsActive && settings.excludeLinksInCurrentLine`, and the
boundaries of the line containing the cursor. -/
structure EmitCtx where
  zones : List (Nat × Nat)
  cursorPos : Nat
  excludeLine : Bool
  lineStart : Nat
  lineEnd : Nat
deriving DecidableEq

/-- The body of the final `filteredAdditions.forEach` of
`buildDecorations`: an addition is emitted iff no exclusion interval
overlaps it, the cursor does not satisfy
`cursorPos >= from - 0 && cursorPos <= to + 0` (inclusive at both
ends), and, when the current line is excluded, the span does not lie
entirely within that line. -/
def emitOne (ctx : EmitCtx) (a : Addition) : Bool :=
  decide ((searchHits ctx.zones a.fromPos a.toPos).length = 0) &&
    !(decide (a.fromPos ≤ ctx.cursorPos) && decide (ctx.cursorPos ≤ a.toPos)) &&
    (!ctx.excludeLine ||
      !(decide (ctx.lineStart ≤ a.fromPos) && decide (a.toPos ≤ ctx.lineEnd)))

/-- The additions actually handed to the decoration builder. -/
def emitAdditions (ctx : EmitCtx) (adds : List Addition) : List Addition :=
  adds.filter (emitOne ctx)

/-- The per-range pipeline of `buildDecorations` after candidate
generation: overlap resolution followed by exclusion filtering,
returning the spans of the emitted decorations. -/
def buildFiltered (ctx : EmitCtx) (spans : List (Nat × Nat)) :
    List (Nat × Nat) :=
  (emitAdditions ctx (Linker.filterMarked (Linker.sortAdds
    (Linker.enumAdds spans)))).map fun a => (a.fromPos, a.toPos)

theorem enumAdds_mem_span {a : Addition} {spans : List (Nat × Nat)}
    (ha : a ∈ Linker.enumAdds spans) : (a.fromPos, a.toPos) ∈ spans := by
  unfold Linker.enumAdds at ha
  obtain ⟨p, hp, rfl⟩ := List.mem_map.mp ha
  have : p.2 ∈ spans := by
    rw [← List.enum_map_snd spans]
    exact List.mem_map_of_mem Prod.snd hp
  exact this

theorem span_mem_enumAdds {x : Nat × Nat} {spans : List (Nat × Nat)}
    (hx : x ∈ spans) :
    ∃ a ∈ Linker.enumAdds spans, a.fromPos = x.1 ∧ a.toPos = x.2 := by
  rw [← List.enum_map_snd spans] at hx
  obtain ⟨p, hp, hps⟩ := List.mem_map.mp hx
  refine ⟨⟨p.1, p.2.1, p.2.2⟩, ?_, ?_, ?_⟩
  · exact List.mem_map_of_mem _ hp
  · rw [hps]
  · rw [hps]

theorem exists_first_split {α : Type} (p : α → Bool) :
    ∀ {l : List α}, (∃ x ∈ l, p x = true) →
      ∃ l1 x l2, l = l1 ++ x :: l2 ∧ p x = true ∧ ∀ y ∈ l1, p y = false := by
  intro l
  induction l with
  | nil => intro h; obtain ⟨x, hx, _⟩ := h; exact absurd hx (List.not_mem_nil x)
  | cons a tl ih =>
    intro h
    by_cases hpa : p a = true
    · exact ⟨[], a, tl, rfl, hpa, fun y hy => absurd hy (List.not_mem_nil y)⟩
    · obtain ⟨x, hx, hpx⟩ := h
      have hxtl : x ∈ tl := by
        rcases List.mem_cons.mp hx with rfl | h2
        · exact absurd hpx hpa
        · exact h2
      obtain ⟨l1, x', l2, heq, hpx', hfirst⟩ := ih ⟨x, hxtl, hpx⟩
      refine ⟨a :: l1, x', l2, by rw [heq, List.cons_append], hpx', ?_⟩
      intro y hy
      rcases List.mem_cons.mp hy with rfl | h2
      · simpa using hpa
      · exact hfirst y h2

/-- C1: every span list, run through the overlap resolver and the
exclusion filter of `buildDecorations`, yields an output that is sorted
by `from` in ascending order and pairwise non-overlapping. -/
theorem filtered_output_sorted_disjoint (ctx : EmitCtx)
    (spans : List (Nat × Nat)) :
    (buildFiltered ctx spans).Pairwise fun s t =>
      s.1 ≤ t.1 ∧ spansOverlap s t = false := by
  unfold buildFiltered
  rw [Linker.filterMarked_eq_keepAll (Linker.sortAdds_pairwise_fromLE _)
    (Linker.sortAdds_ids_nodup _)]
  have hp := Linker.keepAll_pairwise
    (Linker.sortAdds_pairwise_fromLE (Linker.enumAdds spans)) []
  have hsub : (emitAdditions ctx
      (Linker.keepAll [] (Linker.sortAdds (Linker.enumAdds spans)))).Sublist
      (Linker.keepAll [] (Linker.sortAdds (Linker.enumAdds spans))) :=
    List.filter_sublist _
  have hp2 := List.Pairwise.sublist hsub hp
  rw [List.pairwise_map]
  refine hp2.imp ?_
  intro a b hab
  refine ⟨hab.1, ?_⟩
  simp only [spansOverlap, decide_eq_false_iff_not]
  intro hlt
  have h3 : b.fromPos < a.toPos :=
    lt_of_le_of_lt (le_max_right a.fromPos b.fromPos)
      (lt_of_lt_of_le hlt (min_le_left a.toPos b.toPos))
  omega

/-- C2 counterexample: in the candidate list
`[(0,5), (2,8), (6,7)]` the candidate `(6,7)` overlaps no kept
predecessor — the only kept candidate is `(0,5)`, which ends before
offset `6` — yet the resolver drops it, because the already superseded
candidate `(2,8)` also marks its own successors. -/
theorem overlap_supersession_cex :
    Linker.resolveOverlaps [(0,5),(2,8),(6,7)] = [(0,5)] ∧
    spansOverlap (0,5) (6,7) = false ∧
    ((6,7) ∈ ([(0,5),(2,8),(6,7)] : List (Nat × Nat))) ∧
    (6,7) ∉ Linker.resolveOverlaps [(0,5),(2,8),(6,7)] := by decide

/-- C2 amended: in the overlap resolver, a candidate of the sorted list
is kept iff every earlier candidate of the sorted list — kept or itself
already superseded — ends at or before the candidate's start; a later
candidate is dropped whenever it overlaps any earlier candidate,
superseded ones included. -/
theorem overlap_supersession_amended (spans : List (Nat × Nat)) :
    Linker.resolveOverlaps spans =
      (Linker.keepAll [] (Linker.sortAdds (Linker.enumAdds spans))).map
        fun a => (a.fromPos, a.toPos) :=
  Linker.resolveOverlaps_eq_keepAll spans

/-- C3 counterexample: candidates `(1,4)` and `(1,3)` play the roles of
a dictionary entry and a strict prefix of it, both matching at offset
`1`; with a third candidate `(0,2)` overlapping them, the resolver's
output contains neither, in particular not the longer span `(1,4)`,
contradicting the claim that the longer span is kept. -/
theorem longest_match_cex :
    Linker.resolveOverlaps [(0,2),(1,4),(1,3)] = [(0,2)] ∧
    ((1,4) ∈ ([(0,2),(1,4),(1,3)] : List (Nat × Nat))) ∧
    ((1,3) ∈ ([(0,2),(1,4),(1,3)] : List (Nat × Nat))) ∧
    (1,4) ∉ Linker.resolveOverlaps [(0,2),(1,4),(1,3)] := by decide

/-- C3 amended: when two candidates start at the same offset `sf` with
ends `st < lt` (as produced by a dictionary entry and a strict prefix
of it matching at the same offset), the resolver never keeps the
shorter one — unconditionally, since among equal starts the longer
sorts first and the inner marking loop cannot break before it marks the
shorter; and the longer one is kept provided no candidate starting
earlier reaches past `sf` and no candidate starting at `sf` reaches
past `lt`. -/
theorem longest_match_amended (spans : List (Nat × Nat)) (sf st lt : Nat)
    (_hshort : (sf, st) ∈ spans) (hlong : (sf, lt) ∈ spans)
    (h1 : sf < st) (h2 : st < lt) :
    (sf, st) ∉ Linker.resolveOverlaps spans ∧
    ((∀ c ∈ spans, c.1 < sf → c.2 ≤ sf) →
      (∀ c ∈ spans, c.1 = sf → c.2 ≤ lt) →
      (sf, lt) ∈ Linker.resolveOverlaps spans) := by
  have hperm := Linker.sortAdds_perm (Linker.enumAdds spans)
  have hsorted := Linker.sortAdds_pairwise_addLE (Linker.enumAdds spans)
  have hSspan : ∀ a ∈ Linker.sortAdds (Linker.enumAdds spans),
      (a.fromPos, a.toPos) ∈ spans :=
    fun a ha => enumAdds_mem_span (hperm.mem_iff.mp ha)
  constructor
  · -- the shorter candidate is superseded, whatever else the list holds
    intro hmem
    rw [Linker.resolveOverlaps_eq_keepAll] at hmem
    obtain ⟨b, hb, hbs⟩ := List.mem_map.mp hmem
    have hbf : b.fromPos = sf := congrArg Prod.fst hbs
    have hbt : b.toPos = st := congrArg Prod.snd hbs
    obtain ⟨l1, l2, heq, hle⟩ := Linker.keepAll_mem_split hb
    obtain ⟨c0, hc0, hc0f, hc0t⟩ := span_mem_enumAdds hlong
    have hc0S : c0 ∈ Linker.sortAdds (Linker.enumAdds spans) :=
      hperm.mem_iff.mpr hc0
    rw [heq] at hc0S
    rcases List.mem_append.mp hc0S with hcl1 | hcright
    · have := hle c0 (by rw [List.nil_append]; exact hcl1)
      rw [hc0t, hbf] at this
      omega
    · rcases List.mem_cons.mp hcright with rfl | hcl2
      · rw [hbt] at hc0t
        omega
      · have hrel : Linker.addLE b c0 := by
          have hpair := List.pairwise_append.mp (heq ▸
            Linker.sortAdds_pairwise_addLE (Linker.enumAdds spans))
          exact List.rel_of_pairwise_cons hpair.2.1 hcl2
        rcases hrel with hlt' | ⟨_, htle⟩
        · rw [hbf, hc0f] at hlt'
          omega
        · rw [hbt, hc0t] at htle
          omega
  · -- the longer candidate survives under the no-earlier-overlap provisos
    intro hleft hsame
    obtain ⟨c0, hc0, hc0f, hc0t⟩ := span_mem_enumAdds hlong
    have hc0S : c0 ∈ Linker.sortAdds (Linker.enumAdds spans) :=
      hperm.mem_iff.mpr hc0
    obtain ⟨l1, c, l2, heq, hpc, hfirst⟩ := exists_first_split
      (fun x => decide (x.fromPos = sf ∧ x.toPos = lt))
      ⟨c0, hc0S, decide_eq_true ⟨hc0f, hc0t⟩⟩
    have hcf : c.fromPos = sf := (of_decide_eq_true hpc).1
    have hct : c.toPos = lt := (of_decide_eq_true hpc).2
    have hl1rel : ∀ x ∈ l1, Linker.addLE x c := by
      intro x hx
      have := List.pairwise_append.mp (heq ▸ hsorted)
      exact this.2.2 x hx c (List.mem_cons_self c l2)
    have hl1le : ∀ x ∈ [] ++ l1, x.toPos ≤ c.fromPos := by
      intro x hx
      rw [List.nil_append] at hx
      have hxS : x ∈ Linker.sortAdds (Linker.enumAdds spans) := by
        rw [heq]
        exact List.mem_append_left _ hx
      have hxspan := hSspan x hxS
      rcases hl1rel x hx with hlt' | ⟨hfeq, htle⟩
      · -- x starts strictly before sf
        have := hleft _ hxspan (by rw [hcf] at hlt'; exact hlt')
        rw [hcf]
        exact this
      · -- x starts at sf; by the bound it ends at lt, so it would be a
        -- first occurrence itself
        have hxle := hsame _ hxspan (by rw [hcf] at hfeq; exact hfeq)
        have hxlt : x.toPos = lt := by
          rw [hct] at htle
          omega
        have := hfirst x hx
        rw [decide_eq_false_iff_not] at this
        exact absurd ⟨by rw [hcf] at hfeq; exact hfeq, hxlt⟩ this
    have hckeep : c ∈ Linker.keepAll []
        (Linker.sortAdds (Linker.enumAdds spans)) := by
      rw [heq]
      exact Linker.keepAll_of_prefix_le hl1le
    rw [Linker.resolveOverlaps_eq_keepAll]
    have : (c.fromPos, c.toPos) ∈ (Linker.keepAll []
        (Linker.sortAdds (Linker.enumAdds spans))).map
        (fun a => (a.fromPos, a.toPos)) :=
      List.mem_map_of_mem _ hckeep
    rw [hcf, hct] at this
    exact this

/-- C3 amended witness: with only the two candidates `(1,4)` and
`(1,3)` present, the shorter is dropped and — the provisos holding —
the longer is kept. -/
theorem longest_match_amended_witness :
    ((1,3) ∈ ([(1,4),(1,3)] : List (Nat × Nat))) ∧
    ((1,4) ∈ ([(1,4),(1,3)] : List (Nat × Nat))) ∧
    ((1,3) ∉ Linker.resolveOverlaps [(1,4),(1,3)] ∧
      ((∀ c ∈ ([(1,4),(1,3)] : List (Nat × Nat)), c.1 < 1 → c.2 ≤ 1) →
        (∀ c ∈ ([(1,4),(1,3)] : List (Nat × Nat)), c.1 = 1 → c.2 ≤ 4) →
        (1,4) ∈ Linker.resolveOverlaps [(1,4),(1,3)])) :=
  ⟨by decide, by decide,
    longest_match_amended [(1,4),(1,3)] 1 3 4 (by decide) (by decide)
      (by decide) (by decide)⟩

/-- C4: an addition whose half-open span intersects the range of a
syntax node whose type name contains one of the configured excluded
type strings — for the exclusion list in effect under the current
`includeHeaders` configuration — is never emitted. -/
theorem structural_exclusion (includeHeaders : Bool) (nodes : List NodeInfo)
    (n : NodeInfo) (cursorPos lineStart lineEnd : Nat) (excludeLine : Bool)
    (adds : List Addition) (a : Addition)
    (hn : n ∈ nodes)
    (het : ∃ et ∈ excludedTypes includeHeaders,
      containsSub n.typeName et = true)
    (hov : max a.fromPos n.nodeFrom < min a.toPos n.nodeTo) :
    a ∉ emitAdditions
      ⟨buildZones includeHeaders nodes, cursorPos, excludeLine,
        lineStart, lineEnd⟩ adds := by
  intro hmem
  have h2 : emitOne ⟨buildZones includeHeaders nodes, cursorPos, excludeLine,
      lineStart, lineEnd⟩ a = true := (List.mem_filter.mp hmem).2
  simp only [emitOne, Bool.and_eq_true, decide_eq_true_eq] at h2
  have hlen : (searchHits (buildZones includeHeaders nodes)
      a.fromPos a.toPos).length = 0 := h2.1.1
  have hzone : (n.nodeFrom, n.nodeTo) ∈ buildZones includeHeaders nodes := by
    unfold buildZones
    refine List.mem_flatMap.mpr ⟨n, hn, ?_⟩
    obtain ⟨et, hetmem, hetc⟩ := het
    exact List.mem_map.mpr ⟨et, List.mem_filter.mpr ⟨hetmem, hetc⟩, rfl⟩
  have hhit : (n.nodeFrom, n.nodeTo) ∈
      searchHits (buildZones includeHeaders nodes) a.fromPos a.toPos := by
    refine List.mem_filter.mpr ⟨hzone, ?_⟩
    have hx1 : n.nodeFrom ≤ a.toPos :=
      le_of_lt (lt_of_le_of_lt (le_max_right a.fromPos n.nodeFrom)
        (lt_of_lt_of_le hov (min_le_left a.toPos n.nodeTo)))
    have hx2 : a.fromPos ≤ n.nodeTo :=
      le_of_lt (lt_of_le_of_lt (le_max_left a.fromPos n.nodeFrom)
        (lt_of_lt_of_le hov (min_le_right a.toPos n.nodeTo)))
    rw [Bool.and_eq_true]
    exact ⟨decide_eq_true hx1, decide_eq_true hx2⟩
  rw [List.length_eq_zero] at hlen
  rw [hlen] at hhit
  exact absurd hhit (List.not_mem_nil _)

/-- C4 witness: a node of type `internal-link` covering `[2, 5]`
suppresses the addition spanning `[3, 6)`. -/
theorem structural_exclusion_witness :
    ((⟨"internal-link", 2, 5⟩ : NodeInfo) ∈
      ([⟨"internal-link", 2, 5⟩] : List NodeInfo)) ∧
    (∃ et ∈ excludedTypes true,
      containsSub (NodeInfo.typeName ⟨"internal-link", 2, 5⟩) et = true) ∧
    (max 3 2 < min 6 5) ∧
    (⟨0, 3, 6⟩ : Addition) ∉ emitAdditions
      ⟨buildZones true [⟨"internal-link", 2, 5⟩], 0, false, 0, 0⟩
      [⟨0, 3, 6⟩] :=
  ⟨by decide, by decide, by decide,
    structural_exclusion true [⟨"internal-link", 2, 5⟩] ⟨"internal-link", 2, 5⟩
      0 0 0 false [⟨0, 3, 6⟩] ⟨0, 3, 6⟩ (by decide) (by decide) (by decide)⟩

/-- C5: a candidate whose span `[from, to)` satisfies
`from ≤ cursor ≤ to` (inclusive at both ends) is suppressed by the
final filter; and with the cursor at `to + 1` the same candidate is
emitted, provided it passes the structural and current-line filters. -/
theorem cursor_exclusion (ctx : EmitCtx) (adds : List Addition)
    (a : Addition) (ha : a ∈ adds) :
    ((a.fromPos ≤ ctx.cursorPos ∧ ctx.cursorPos ≤ a.toPos) →
      a ∉ emitAdditions ctx adds) ∧
    (ctx.cursorPos = a.toPos + 1 →
      (searchHits ctx.zones a.fromPos a.toPos).length = 0 →
      (ctx.excludeLine = true →
        ¬(ctx.lineStart ≤ a.fromPos ∧ a.toPos ≤ ctx.lineEnd)) →
      a ∈ emitAdditions ctx adds) := by
  constructor
  · rintro ⟨hc1, hc2⟩ hmem
    have h2 : emitOne ctx a = true := (List.mem_filter.mp hmem).2
    have h3 : emitOne ctx a = false := by
      simp [emitOne, hc1, hc2]
    rw [h3] at h2
    exact Bool.false_ne_true h2
  · intro hc hsearch hline
    refine List.mem_filter.mpr ⟨ha, ?_⟩
    unfold emitOne
    rw [Bool.and_eq_true, Bool.and_eq_true]
    refine ⟨⟨decide_eq_true hsearch, ?_⟩, ?_⟩
    · have : decide (ctx.cursorPos ≤ a.toPos) = false := by
        rw [hc]
        exact decide_eq_false (by omega)
      rw [this, Bool.and_false]
      rfl
    · cases hE : ctx.excludeLine with
      | false => rfl
      | true =>
        have hnl := hline hE
        rw [Bool.or_eq_true]
        right
        rw [Bool.not_eq_true', Bool.and_eq_false_iff]
        by_cases hs : ctx.lineStart ≤ a.fromPos
        · right
          exact decide_eq_false fun hend => hnl ⟨hs, hend⟩
        · left
          exact decide_eq_false hs

/-- C5 witness: the addition spanning `[3, 6)` is suppressed with the
cursor at `4` and emitted with the cursor at `7 = 6 + 1`. -/
theorem cursor_exclusion_witness :
    ((⟨0,3,6⟩ : Addition) ∈ ([⟨0,3,6⟩] : List Addition)) ∧
    ((⟨0,3,6⟩ : Addition) ∉ emitAdditions ⟨[], 4, false, 0, 0⟩ [⟨0,3,6⟩]) ∧
    ((⟨0,3,6⟩ : Addition) ∈ emitAdditions ⟨[], 7, false, 0, 0⟩ [⟨0,3,6⟩]) :=
  ⟨by decide,
    (cursor_exclusion ⟨[], 4, false, 0, 0⟩ [⟨0,3,6⟩] ⟨0,3,6⟩ (by decide)).1
      (by decide),
    (cursor_exclusion ⟨[], 7, false, 0, 0⟩ [⟨0,3,6⟩] ⟨0,3,6⟩ (by decide)).2
      (by decide) (by decide) (by decide)⟩

theorem glossary_innerMark_eq : Glossary.innerMark = Linker.innerMark := by
  funext stop l
  induction l with
  | nil => rfl
  | cons a tl ih => rw [Glossary.innerMark, Linker.innerMark, ih]

theorem glossary_outerMark_eq : Glossary.outerMark = Linker.outerMark := by
  funext l
  induction l with
  | nil => rfl
  | cons a tl ih =>
    rw [Glossary.outerMark, Linker.outerMark, ih, glossary_innerMark_eq]

/-- C9: the overlap-resolution step of `src/glossary/liveLinker.ts` and
the one of `src/linker/liveLinker.ts` are the same function from
candidate span lists to surviving span lists. -/
theorem resolvers_equal : Glossary.resolveOverlaps = Linker.resolveOverlaps := by
  unfold Glossary.resolveOverlaps Linker.resolveOverlaps
    Glossary.filterMarked Linker.filterMarked
    Glossary.sortAdds Linker.sortAdds
    Glossary.enumAdds Linker.enumAdds
    Glossary.addLE Linker.addLE
  simp only [glossary_outerMark_eq]

/-- A UTF-16 code unit in the range `0xD800 ..= 0xDBFF`. -/
def isHighSurrogate (u : Nat) : Bool :=
  decide (55296 ≤ u ∧ u ≤ 56319)

/-- A UTF-16 code unit in the range `0xDC00 ..= 0xDFFF`. -/
def isLowSurrogate (u : Nat) : Bool :=
  decide (56320 ≤ u ∧ u ≤ 57343)

/-- The code point encoded by a well-formed surrogate pair. -/
def surrogatePoint (u l : Nat) : Nat :=
  (u - 55296) * 1024 + (l - 56320) + 65536

/-- JavaScript's `text.codePointAt(i)` over a list of UTF-16 code
units: if the unit at `i` is a leading surrogate immediately followed
by a trailing surrogate, the combined code point; otherwise the unit
itself (also for unpaired surrogates). -/
def codePointAt (units : List Nat) (i : Nat) : Nat :=
  let first := units.getD i 0
  if isHighSurrogate first then
    if i + 1 < units.length then
      let second := units.getD (i + 1) 0
      if isLowSurrogate second then surrogatePoint first second else first
    else first
  else first

/-- The character the scan loop works with at index `i`:
`String.fromCodePoint(text.codePointAt(i))` while `i < text.length`,
and the synthetic newline `"\n"` (code point 10) at `i = text.length`. -/
def scanCharAt (units : List Nat) (i : Nat) : Nat :=
  if i < units.length then codePointAt units i else 10

/-- `char.length` of the scan character at `i`: 2 for a code point
beyond the basic multilingual plane (only produced by a well-formed
surrogate pair), 1 otherwise — also 1 for the synthetic final
newline. -/
def charWidthAt (units : List Nat) (i : Nat) : Nat :=
  if i < units.length then
    (if 65536 ≤ codePointAt units i then 2 else 1)
  else 1

/-- The sequence of indices visited by the scan loop
`for (let i = 0; i <= text.length; i)` of `buildDecorations`, starting
at index `i` with `rest` the code units from `i` on: each iteration
advances by the decoded character's `char.length`, and the final
iteration happens at `i = text.length` with the synthetic newline. -/
def positionsFrom (i : Nat) : List Nat → List Nat
  | [] => [i]
  | u :: rest =>
    i :: (match rest with
      | l :: rest2 =>
        if isHighSurrogate u && isLowSurrogate l then
          positionsFrom (i + 2) rest2
        else
          positionsFrom (i + 1) (l :: rest2)
      | [] => positionsFrom (i + 1) [])

/-- All indices visited by the scan loop over a text window. -/
def visitedPositions (units : List Nat) : List Nat :=
  positionsFrom 0 units

/-- One dictionary entry: the pattern (a note title or alias) as a list
of code points, and the id of the owning file. -/
structure DictEntry where
  text : List Nat
  fileId : Nat
deriving DecidableEq, Repr

/-- Modelled from the spec: `PrefixTree.checkWordBoundary` lives in
`linkerCache.ts`, which is not under `src/`; per the specification a
character is a word boundary iff it is whitespace or one of a defined
set of punctuation characters. -/
def checkWordBoundary (cp : Nat) : Bool :=
  ([32, 9, 10, 13, 46, 44, 59, 58, 33, 63, 40, 41, 91, 93, 34, 39] :
    List Nat).contains cp

/-- The claim's reading of "the left edge of the span is a word
boundary", stated in the spec's words for comparison with the code:
position `p` sits at a word boundary iff it is the start of the window
or the character just before it is a boundary character. -/
def leftEdgeIsWordBoundary (units : List Nat) (p : Nat) : Bool :=
  if p = 0 then true else checkWordBoundary (codePointAt units (p - 1))

/-- Modelled from the spec: an ActiveCursor of the prefix automaton
(`linkerCache.ts` is not under `src/`) — the offset the in-progress
walk started at and the code points consumed so far; the cursor is
alive while the consumed text is a prefix of some dictionary entry. -/
structure ScanCursor where
  start : Nat
  consumed : List Nat
deriving DecidableEq, Repr

/-- Modelled from the spec: `push(char)` of the prefix automaton —
advance every live cursor by the pushed code point, drop the cursors
whose consumed text is no longer a prefix of any entry, and append one
new cursor starting at the current offset if the pushed code point
starts some entry. -/
def pushChar (dict : List DictEntry) (st : List ScanCursor) (offset : Nat)
    (cp : Nat) : List ScanCursor :=
  ((st.map fun c => ⟨c.start, c.consumed ++ [cp]⟩).filter fun c =>
    dict.any fun e => c.consumed.isPrefixOf e.text) ++
    (if dict.any fun e => [cp].isPrefixOf e.text then
      [⟨offset, [cp]⟩] else [])

/-- A match reported by the automaton: the span's start and end offsets
and the owning files, in entry order. -/
structure MatchNode where
  start : Nat
  endPos : Nat
  files : List Nat
deriving DecidableEq, Repr

/-- Modelled from the spec: the entity set of a terminal automaton node
— the owning files of every dictionary entry whose text equals the
consumed text, with the excluded file removed. -/
def matchFiles (dict : List DictEntry) (consumed : List Nat)
    (excl : Option Nat) : List Nat :=
  let fs := (dict.filter fun e => e.text = consumed).map DictEntry.fileId
  match excl with
  | none => fs
  | some x => fs.filter fun f => f ≠ x

/-- Modelled from the spec: `getCurrentMatchNodes(offset, excludeFile)`
of `linkerCache.ts` — for every live cursor whose consumed text is a
complete dictionary entry, a result spanning from the cursor's start to
the current offset, carrying the owning files; results whose file set
becomes empty after removing the excluded file are dropped. -/
def getCurrentMatchNodes (dict : List DictEntry) (st : List ScanCursor)
    (offset : Nat) (excl : Option Nat) : List MatchNode :=
  st.filterMap fun c =>
    if (matchFiles dict c.consumed excl).isEmpty then none
    else some ⟨c.start, offset, matchFiles dict c.consumed excl⟩

/-- A candidate produced by the scan loop of `buildDecorations`: the
running id, the global span offsets, the `isSubWord` flag passed to the
widget (`!isWordBoundary` for the character at the query position), and
the chosen file. -/
structure Candidate where
  id : Nat
  fromPos : Nat
  toPos : Nat
  isSubWord : Bool
  fileId : Nat
deriving DecidableEq, Repr

/-- The per-index body of the scan loop of `buildDecorations`
(linker variant): unless whole-word matching restricts the query to
boundary characters, query the automaton at the current index, and turn
the first result into a candidate whose `isSubWord` flag is the negated
word-boundary status of the current character. -/
def scanStep (dict : List DictEntry) (mw : Bool) (excl : Option Nat)
    (base : Nat) (st : List ScanCursor) (i : Nat) (cp : Nat)
    (nextId : Nat) : Option Candidate :=
  let isWB := checkWordBoundary cp
  if !mw || isWB then
    match getCurrentMatchNodes dict st i excl with
    | [] => none
    | node :: _ =>
      some ⟨nextId, base + node.start, base + node.endPos, !isWB,
        node.files.headD 0⟩
  else none

/-- The scan loop `for (let i = 0; i <= text.length; i)` of
`buildDecorations`: decode one whole code point (falling back to a
single unit on an unpaired surrogate), query before pushing, push the
character, advance by `char.length`; the iteration at `i = text.length`
uses the synthetic newline and does not recurse. -/
def scanLoop (dict : List DictEntry) (mw : Bool) (excl : Option Nat)
    (base : Nat) : List Nat → Nat → List ScanCursor → Nat → List Candidate
  | [], i, st, nextId =>
    match scanStep dict mw excl base st i 10 nextId with
    | some c => [c]
    | none => []
  | u :: rest, i, st, nextId =>
    match rest with
    | l :: rest2 =>
      if isHighSurrogate u && isLowSurrogate l then
        match scanStep dict mw excl base st i (surrogatePoint u l) nextId with
        | some c =>
          c :: scanLoop dict mw excl base rest2 (i + 2)
            (pushChar dict st i (surrogatePoint u l)) (nextId + 1)
        | none =>
          scanLoop dict mw excl base rest2 (i + 2)
            (pushChar dict st i (surrogatePoint u l)) nextId
      else
        match scanStep dict mw excl base st i u nextId with
        | some c =>
          c :: scanLoop dict mw excl base (l :: rest2) (i + 1)
            (pushChar dict st i u) (nextId + 1)
        | none =>
          scanLoop dict mw excl base (l :: rest2) (i + 1)
            (pushChar dict st i u) nextId
    | [] =>
      match scanStep dict mw excl base st i u nextId with
      | some c =>
        c :: scanLoop dict mw excl base [] (i + 1) (pushChar dict st i u)
          (nextId + 1)
      | none =>
        scanLoop dict mw excl base [] (i + 1) (pushChar dict st i u) nextId

/-- One whole scan pass over a text window given as UTF-16 code units:
the candidate list collected by `buildDecorations` before sorting. -/
def scanCandidates (dict : List DictEntry) (mw : Bool) (excl : Option Nat)
    (base : Nat) (units : List Nat) : List Candidate :=
  scanLoop dict mw excl base units 0 [] 0

theorem drop_cons_lt {units : List Nat} {i u : Nat} {rest : List Nat}
    (h : units.drop i = u :: rest) : i < units.length := by
  have hlen := congrArg List.length h
  rw [List.length_drop] at hlen
  simp only [List.length_cons] at hlen
  omega

theorem drop_getD {units : List Nat} {i u : Nat} {rest : List Nat}
    (h : units.drop i = u :: rest) : units.getD i 0 = u := by
  rw [List.getD_eq_getD_get?]
  have h0 : units.get? i = some u := by
    have hg := List.get?_drop units i 0
    rw [h] at hg
    simpa using hg.symm
  rw [h0]
  rfl

theorem drop_succ_of_cons {units : List Nat} {i u : Nat} {rest : List Nat}
    (h : units.drop i = u :: rest) : units.drop (i + 1) = rest := by
  rw [← List.tail_drop, h]
  rfl

theorem drop_head_mem {units : List Nat} {i u : Nat} {rest : List Nat}
    (h : units.drop i = u :: rest) : u ∈ units :=
  List.drop_subset i units (h ▸ List.mem_cons_self u rest)

theorem codePointAt_pair {units : List Nat} {i u l : Nat} {rest2 : List Nat}
    (hdrop : units.drop i = u :: l :: rest2)
    (hhi : isHighSurrogate u = true) (hlo : isLowSurrogate l = true) :
    codePointAt units i = surrogatePoint u l := by
  have hu : units.getD i 0 = u := drop_getD hdrop
  have hdrop1 : units.drop (i + 1) = l :: rest2 := drop_succ_of_cons hdrop
  have hl : units.getD (i + 1) 0 = l := drop_getD hdrop1
  have hi1 : i + 1 < units.length := drop_cons_lt hdrop1
  unfold codePointAt
  simp only [hu, hl]
  rw [if_pos hhi, if_pos hi1, if_pos hlo]

theorem codePointAt_single_cons {units : List Nat} {i u l : Nat}
    {rest2 : List Nat} (hdrop : units.drop i = u :: l :: rest2)
    (hsur : (isHighSurrogate u && isLowSurrogate l) = false) :
    codePointAt units i = u := by
  have hu : units.getD i 0 = u := drop_getD hdrop
  have hdrop1 : units.drop (i + 1) = l :: rest2 := drop_succ_of_cons hdrop
  have hl : units.getD (i + 1) 0 = l := drop_getD hdrop1
  unfold codePointAt
  simp only [hu, hl]
  cases hh : isHighSurrogate u with
  | false => rw [if_neg (by simp [hh])]
  | true =>
    have hlo : isLowSurrogate l = false := by
      rcases Bool.and_eq_false_iff.mp hsur with h1 | h1
      · rw [hh] at h1; exact absurd h1 (by simp)
      · exact h1
    rw [if_pos rfl]
    split
    · rw [if_neg (by simp [hlo])]
    · rfl

theorem codePointAt_last {units : List Nat} {i u : Nat}
    (hdrop : units.drop i = [u]) : codePointAt units i = u := by
  have hu : units.getD i 0 = u := drop_getD hdrop
  have hdrop1 : units.drop (i + 1) = [] := drop_succ_of_cons hdrop
  have hi1 : ¬ (i + 1 < units.length) := by
    have hlen := congrArg List.length hdrop1
    rw [List.length_drop] at hlen
    simp only [List.length_nil] at hlen
    omega
  unfold codePointAt
  simp only [hu]
  simp [hi1]

theorem scanCharAt_lt {units : List Nat} {i : Nat} (h : i < units.length) :
    scanCharAt units i = codePointAt units i := by
  unfold scanCharAt
  rw [if_pos h]

theorem scanCharAt_length (units : List Nat) :
    scanCharAt units units.length = 10 := by
  unfold scanCharAt
  rw [if_neg (lt_irrefl _)]

theorem charWidthAt_pos (units : List Nat) (i : Nat) :
    1 ≤ charWidthAt units i := by
  unfold charWidthAt
  split
  · split <;> omega
  · omega

theorem getCurrentMatchNodes_endPos {dict : List DictEntry}
    {st : List ScanCursor} {offset : Nat} {excl : Option Nat}
    {node : MatchNode}
    (h : node ∈ getCurrentMatchNodes dict st offset excl) :
    node.endPos = offset := by
  unfold getCurrentMatchNodes at h
  obtain ⟨c, _, heq⟩ := List.mem_filterMap.mp h
  by_cases hemp : (matchFiles dict c.consumed excl).isEmpty = true
  · rw [if_pos hemp] at heq
    exact absurd heq (by simp)
  · rw [if_neg hemp] at heq
    have := Option.some.inj heq
    rw [← this]

theorem scanStep_some_spec {dict : List DictEntry} {mw : Bool}
    {excl : Option Nat} {base : Nat} {st : List ScanCursor}
    {i cp nextId : Nat} {c : Candidate}
    (h : scanStep dict mw excl base st i cp nextId = some c) :
    c.isSubWord = !checkWordBoundary cp ∧ c.toPos = base + i := by
  unfold scanStep at h
  by_cases hq : (!mw || checkWordBoundary cp) = true
  · rw [if_pos hq] at h
    cases hnodes : getCurrentMatchNodes dict st i excl with
    | nil => rw [hnodes] at h; exact absurd h (by simp)
    | cons node tl =>
      rw [hnodes] at h
      have hnode : node ∈ getCurrentMatchNodes dict st i excl := by
        rw [hnodes]; exact List.mem_cons_self node tl
      have hend := getCurrentMatchNodes_endPos hnode
      have hc := Option.some.inj h
      rw [← hc]
      exact ⟨rfl, by rw [hend]⟩
  · rw [if_neg hq] at h
    exact absurd h (by simp)

theorem scanLoop_nil_spec (dict : List DictEntry) (mw : Bool)
    (excl : Option Nat) (base : Nat) (units : List Nat)
    (st : List ScanCursor) (nextId : Nat) {i : Nat}
    (hdrop : units.drop i = []) (hle : i ≤ units.length) :
    ∀ c ∈ scanLoop dict mw excl base [] i st nextId,
      c.isSubWord = !checkWordBoundary (scanCharAt units (c.toPos - base)) ∧
      base ≤ c.toPos ∧ c.toPos ≤ base + units.length := by
  intro c hc
  have hieq : i = units.length := by
    have hlen := congrArg List.length hdrop
    rw [List.length_drop] at hlen
    simp only [List.length_nil] at hlen
    omega
  rw [scanLoop] at hc
  cases hs : scanStep dict mw excl base st i 10 nextId with
  | none => rw [hs] at hc; exact absurd hc (List.not_mem_nil c)
  | some c' =>
    rw [hs] at hc
    have hcc : c = c' := List.mem_singleton.mp hc
    subst hcc
    obtain ⟨hsub, hto⟩ := scanStep_some_spec hs
    refine ⟨?_, ?_, ?_⟩
    · rw [hsub, hto, Nat.add_sub_cancel_left, hieq, scanCharAt_length]
    · omega
    · omega

theorem scanLoop_isSubWord (dict : List DictEntry) (mw : Bool)
    (excl : Option Nat) (base : Nat) (units : List Nat) :
    ∀ (n : Nat) (remaining : List Nat) (i : Nat) (st : List ScanCursor)
      (nextId : Nat), remaining.length ≤ n →
      units.drop i = remaining → i ≤ units.length →
      ∀ c ∈ scanLoop dict mw excl base remaining i st nextId,
        c.isSubWord = !checkWordBoundary (scanCharAt units (c.toPos - base)) ∧
        base ≤ c.toPos ∧ c.toPos ≤ base + units.length := by
  intro n
  induction n with
  | zero =>
    intro remaining i st nextId hlen hdrop hle
    have hrem : remaining = [] :=
      List.length_eq_zero.mp (Nat.le_zero.mp hlen)
    subst hrem
    exact scanLoop_nil_spec dict mw excl base units st nextId hdrop hle
  | succ n ih =>
    intro remaining i st nextId hlen hdrop hle
    cases remaining with
    | nil => exact scanLoop_nil_spec dict mw excl base units st nextId hdrop hle
    | cons u rest =>
      have hi : i < units.length := drop_cons_lt hdrop
      have hdrop1 : units.drop (i + 1) = rest := drop_succ_of_cons hdrop
      have hlen1 := congrArg List.length hdrop
      rw [List.length_drop] at hlen1
      simp only [List.length_cons] at hlen1
      intro c hc
      cases rest with
      | nil =>
        have hcp : scanCharAt units i = u := by
          rw [scanCharAt_lt hi, codePointAt_last hdrop]
        simp only [scanLoop] at hc
        cases hs : scanStep dict mw excl base st i u nextId with
        | some c' =>
          rw [hs] at hc
          rcases List.mem_cons.mp hc with rfl | h2
          · obtain ⟨hsub, hto⟩ := scanStep_some_spec hs
            refine ⟨?_, by omega, by omega⟩
            rw [hsub, hto, Nat.add_sub_cancel_left, hcp]
          · exact ih [] (i + 1) (pushChar dict st i u) (nextId + 1)
              (Nat.zero_le n) hdrop1 (by omega) c h2
        | none =>
          rw [hs] at hc
          exact ih [] (i + 1) (pushChar dict st i u) nextId
            (Nat.zero_le n) hdrop1 (by omega) c hc
      | cons l rest2 =>
        have hdrop2 : units.drop (i + 2) = rest2 := by
          have := drop_succ_of_cons hdrop1
          simpa [Nat.add_assoc] using this
        have hi1 : i + 1 < units.length := drop_cons_lt hdrop1
        simp only [scanLoop] at hc
        by_cases hsur : (isHighSurrogate u && isLowSurrogate l) = true
        · rw [if_pos hsur] at hc
          obtain ⟨hhiu, hlol⟩ : isHighSurrogate u = true ∧
              isLowSurrogate l = true := by simpa using hsur
          have hcp : scanCharAt units i = surrogatePoint u l := by
            rw [scanCharAt_lt hi, codePointAt_pair hdrop hhiu hlol]
          cases hs : scanStep dict mw excl base st i (surrogatePoint u l)
              nextId with
          | some c' =>
            rw [hs] at hc
            rcases List.mem_cons.mp hc with rfl | h2
            · obtain ⟨hsub, hto⟩ := scanStep_some_spec hs
              refine ⟨?_, by omega, by omega⟩
              rw [hsub, hto, Nat.add_sub_cancel_left, hcp]
            · exact ih rest2 (i + 2)
                (pushChar dict st i (surrogatePoint u l)) (nextId + 1)
                (by simp only [List.length_cons] at hlen; omega) hdrop2
                (by omega) c h2
          | none =>
            rw [hs] at hc
            exact ih rest2 (i + 2)
              (pushChar dict st i (surrogatePoint u l)) nextId
              (by simp only [List.length_cons] at hlen; omega) hdrop2
              (by omega) c hc
        · rw [if_neg hsur] at hc
          have hsur' : (isHighSurrogate u && isLowSurrogate l) = false :=
            Bool.eq_false_iff.mpr hsur
          have hcp : scanCharAt units i = u := by
            rw [scanCharAt_lt hi, codePointAt_single_cons hdrop hsur']
          cases hs : scanStep dict mw excl base st i u nextId with
          | some c' =>
            rw [hs] at hc
            rcases List.mem_cons.mp hc with rfl | h2
            · obtain ⟨hsub, hto⟩ := scanStep_some_spec hs
              refine ⟨?_, by omega, by omega⟩
              rw [hsub, hto, Nat.add_sub_cancel_left, hcp]
            · exact ih (l :: rest2) (i + 1) (pushChar dict st i u)
                (nextId + 1)
                (by simp only [List.length_cons] at hlen ⊢; omega) hdrop1
                (by omega) c h2
          | none =>
            rw [hs] at hc
            exact ih (l :: rest2) (i + 1) (pushChar dict st i u) nextId
              (by simp only [List.length_cons] at hlen ⊢; omega) hdrop1
              (by omega) c hc


/-- C6 counterexample: with the dictionary entry `"ote"` and the window
`"note "` (code units `[110,111,116,101,32]`), sub-word matching on,
the scanner produces exactly one candidate, spanning `[1, 4)`: its left
edge is not at a word boundary (the preceding character is `n`), yet
its `isSubWord` flag is `false`, because the code derives the flag from
the boundary status of the character at the query position — the space
after the match. -/
theorem isSubWord_left_edge_cex :
    scanCandidates [⟨[111,116,101], 0⟩] false none 0 [110,111,116,101,32] =
      [⟨0, 1, 4, false, 0⟩] ∧
    leftEdgeIsWordBoundary [110,111,116,101,32] 1 = false ∧
    ¬ (∀ c ∈ scanCandidates [⟨[111,116,101], 0⟩] false none 0
        [110,111,116,101,32],
      (c.isSubWord = true ↔
        leftEdgeIsWordBoundary [110,111,116,101,32] c.fromPos = false)) := by
  decide

/-- C6 amended: for every candidate the scanner produces, `isSubWord`
is true iff the character at the position where the match is reported —
the character immediately after the match's right edge, or the
synthetic end-of-window newline — is not a word boundary. -/
theorem isSubWord_right_edge_amended (dict : List DictEntry) (mw : Bool)
    (excl : Option Nat) (base : Nat) (units : List Nat) (c : Candidate)
    (hc : c ∈ scanCandidates dict mw excl base units) :
    c.isSubWord = !checkWordBoundary (scanCharAt units (c.toPos - base)) ∧
    base ≤ c.toPos ∧ c.toPos ≤ base + units.length :=
  scanLoop_isSubWord dict mw excl base units units.length units 0 [] 0
    (le_refl _) rfl (Nat.zero_le _) c hc

/-- C6 amended witness: the single candidate of the counterexample scan
satisfies the right-edge characterisation. -/
theorem isSubWord_right_edge_witness :
    ((⟨0, 1, 4, false, 0⟩ : Candidate) ∈
      scanCandidates [⟨[111,116,101], 0⟩] false none 0
        [110,111,116,101,32]) ∧
    ((⟨0, 1, 4, false, 0⟩ : Candidate).isSubWord =
      !checkWordBoundary (scanCharAt [110,111,116,101,32]
        ((⟨0, 1, 4, false, 0⟩ : Candidate).toPos - 0)) ∧
      0 ≤ (⟨0, 1, 4, false, 0⟩ : Candidate).toPos ∧
      (⟨0, 1, 4, false, 0⟩ : Candidate).toPos ≤
        0 + ([110,111,116,101,32] : List Nat).length) :=
  ⟨by decide,
    isSubWord_right_edge_amended [⟨[111,116,101], 0⟩] false none 0
      [110,111,116,101,32] ⟨0, 1, 4, false, 0⟩ (by decide)⟩

theorem positionsFrom_head (i : Nat) (rest : List Nat) :
    (positionsFrom i rest).head? = some i := by
  cases rest with
  | nil => rfl
  | cons u rest' =>
    cases rest' with
    | nil => rfl
    | cons l rest2 => simp [positionsFrom]

theorem positionsFrom_nil_spec (units : List Nat) {i : Nat}
    (hdrop : units.drop i = []) (hle : i ≤ units.length) :
    List.Chain' (fun p q => q = p + charWidthAt units p)
      (positionsFrom i []) ∧
    (positionsFrom i []).getLast? = some units.length ∧
    (positionsFrom i []).count units.length = 1 := by
  have hieq : i = units.length := by
    have hlen := congrArg List.length hdrop
    rw [List.length_drop] at hlen
    simp only [List.length_nil] at hlen
    omega
  subst hieq
  refine ⟨List.chain'_singleton _, rfl, ?_⟩
  simp [positionsFrom, List.count_singleton]

theorem positionsFrom_spec (units : List Nat)
    (hvalid : ∀ u ∈ units, u < 65536) :
    ∀ (n : Nat) (rest : List Nat) (i : Nat), rest.length ≤ n →
      units.drop i = rest → i ≤ units.length →
      List.Chain' (fun p q => q = p + charWidthAt units p)
        (positionsFrom i rest) ∧
      (positionsFrom i rest).getLast? = some units.length ∧
      (positionsFrom i rest).count units.length = 1 := by
  intro n
  induction n with
  | zero =>
    intro rest i hlen hdrop hle
    have hrem : rest = [] := List.length_eq_zero.mp (Nat.le_zero.mp hlen)
    subst hrem
    exact positionsFrom_nil_spec units hdrop hle
  | succ n ih =>
    intro rest i hlen hdrop hle
    cases rest with
    | nil => exact positionsFrom_nil_spec units hdrop hle
    | cons u rest' =>
      have hi : i < units.length := drop_cons_lt hdrop
      have hdrop1 : units.drop (i + 1) = rest' := drop_succ_of_cons hdrop
      have humem : u ∈ units := drop_head_mem hdrop
      cases rest' with
      | nil =>
        have hcp : codePointAt units i = u := codePointAt_last hdrop
        have hwidth : charWidthAt units i = 1 := by
          unfold charWidthAt
          rw [if_pos hi, hcp, if_neg (by have := hvalid u humem; omega)]
        have IH := ih [] (i + 1) (Nat.zero_le n) hdrop1 (by omega)
        have hsplit : positionsFrom i [u] = i :: positionsFrom (i + 1) [] :=
          rfl
        rw [hsplit]
        refine ⟨?_, ?_, ?_⟩
        · rw [List.chain'_cons']
          refine ⟨?_, IH.1⟩
          intro y hy
          rw [positionsFrom_head] at hy
          have hyi : y = i + 1 := by have h := hy; simp at h; omega
          rw [hyi, hwidth]
        · cases hrec : positionsFrom (i + 1) [] with
          | nil =>
            have := positionsFrom_head (i + 1) []
            rw [hrec] at this
            exact absurd this (by simp)
          | cons y ys =>
            rw [List.getLast?_cons_cons, ← hrec]
            exact IH.2.1
        · rw [List.count_cons, IH.2.2]
          simp [Nat.ne_of_lt hi]
      | cons l rest2 =>
        have hdrop2 : units.drop (i + 2) = rest2 := by
          have := drop_succ_of_cons hdrop1
          simpa [Nat.add_assoc] using this
        have hi1 : i + 1 < units.length := drop_cons_lt hdrop1
        by_cases hsur : (isHighSurrogate u && isLowSurrogate l) = true
        · obtain ⟨hhiu, hlol⟩ : isHighSurrogate u = true ∧
              isLowSurrogate l = true := by simpa using hsur
          have hcp : codePointAt units i = surrogatePoint u l :=
            codePointAt_pair hdrop hhiu hlol
          have hwidth : charWidthAt units i = 2 := by
            unfold charWidthAt
            rw [if_pos hi, hcp,
              if_pos (by unfold surrogatePoint; omega)]
          have IH := ih rest2 (i + 2)
            (by simp only [List.length_cons] at hlen; omega) hdrop2
            (by omega)
          have hsplit : positionsFrom i (u :: l :: rest2) =
              i :: positionsFrom (i + 2) rest2 := by
            simp only [positionsFrom]
            rw [if_pos hsur]
          rw [hsplit]
          refine ⟨?_, ?_, ?_⟩
          · rw [List.chain'_cons']
            refine ⟨?_, IH.1⟩
            intro y hy
            rw [positionsFrom_head] at hy
            have hyi : y = i + 2 := by have h := hy; simp at h; omega
            rw [hyi, hwidth]
          · cases hrec : positionsFrom (i + 2) rest2 with
            | nil =>
              have := positionsFrom_head (i + 2) rest2
              rw [hrec] at this
              exact absurd this (by simp)
            | cons y ys =>
              rw [List.getLast?_cons_cons, ← hrec]
              exact IH.2.1
          · rw [List.count_cons, IH.2.2]
            simp [Nat.ne_of_lt hi]
        · have hsur' : (isHighSurrogate u && isLowSurrogate l) = false :=
            Bool.eq_false_iff.mpr hsur
          have hcp : codePointAt units i = u :=
            codePointAt_single_cons hdrop hsur'
          have hwidth : charWidthAt units i = 1 := by
            unfold charWidthAt
            rw [if_pos hi, hcp, if_neg (by have := hvalid u humem; omega)]
          have IH := ih (l :: rest2) (i + 1)
            (by simp only [List.length_cons] at hlen ⊢; omega) hdrop1
            (by omega)
          have hsplit : positionsFrom i (u :: l :: rest2) =
              i :: positionsFrom (i + 1) (l :: rest2) := by
            simp only [positionsFrom]
            rw [if_neg (by simp [hsur'])]
          rw [hsplit]
          refine ⟨?_, ?_, ?_⟩
          · rw [List.chain'_cons']
            refine ⟨?_, IH.1⟩
            intro y hy
            rw [positionsFrom_head] at hy
            have hyi : y = i + 1 := by have h := hy; simp at h; omega
            rw [hyi, hwidth]
          · cases hrec : positionsFrom (i + 1) (l :: rest2) with
            | nil =>
              have := positionsFrom_head (i + 1) (l :: rest2)
              rw [hrec] at this
              exact absurd this (by simp)
            | cons y ys =>
              rw [List.getLast?_cons_cons, ← hrec]
              exact IH.2.1
          · rw [List.count_cons, IH.2.2]
            simp [Nat.ne_of_lt hi]

theorem getD_lt_of_valid {units : List Nat} (hvalid : ∀ u ∈ units, u < 65536)
    {i : Nat} (hi : i < units.length) : units.getD i 0 < 65536 := by
  rw [List.getD_eq_get units 0 hi]
  exact hvalid _ (List.get_mem units i hi)

theorem charWidthAt_two_iff (units : List Nat)
    (hvalid : ∀ u ∈ units, u < 65536) (i : Nat) (hi : i < units.length) :
    (charWidthAt units i = 2 ↔
      (isHighSurrogate (units.getD i 0) = true ∧ i + 1 < units.length ∧
        isLowSurrogate (units.getD (i + 1) 0) = true)) := by
  have hfst := getD_lt_of_valid hvalid hi
  unfold charWidthAt codePointAt
  rw [if_pos hi]
  by_cases hh : isHighSurrogate (units.getD i 0) = true
  · rw [if_pos hh]
    by_cases h1 : i + 1 < units.length
    · rw [if_pos h1]
      by_cases hl : isLowSurrogate (units.getD (i + 1) 0) = true
      · rw [if_pos hl, if_pos (by unfold surrogatePoint; omega)]
        exact iff_of_true rfl ⟨hh, h1, hl⟩
      · rw [if_neg hl, if_neg (by omega)]
        exact iff_of_false (by omega) (fun h => hl h.2.2)
    · rw [if_neg h1, if_neg (by omega)]
      exact iff_of_false (by omega) (fun h => h1 h.2.1)
  · rw [if_neg hh, if_neg (by omega)]
    exact iff_of_false (by omega) (fun h => hh h.1)

/-- C7: for every UTF-16 code-unit sequence — well-formed or not — the
scan loop of `buildDecorations` visits a strictly increasing sequence
of indices (each position at most once, hence termination), advances
each time by exactly the decoded character's width, where the width is
2 precisely at a well-formed surrogate pair (an unpaired surrogate
degrades to a single-unit step), and performs exactly one iteration at
index `length`, where the processed character is the synthetic newline
(code point 10). -/
theorem scan_positions_spec (units : List Nat)
    (hvalid : ∀ u ∈ units, u < 65536) :
    List.Chain' (fun p q => q = p + charWidthAt units p)
      (visitedPositions units) ∧
    List.Chain' (· < ·) (visitedPositions units) ∧
    (visitedPositions units).getLast? = some units.length ∧
    (visitedPositions units).count units.length = 1 ∧
    (∀ i, i < units.length →
      (charWidthAt units i = 2 ↔
        (isHighSurrogate (units.getD i 0) = true ∧ i + 1 < units.length ∧
          isLowSurrogate (units.getD (i + 1) 0) = true))) ∧
    scanCharAt units units.length = 10 := by
  have hmain := positionsFrom_spec units hvalid units.length units 0
    (le_refl _) rfl (Nat.zero_le _)
  refine ⟨hmain.1, ?_, hmain.2.1, hmain.2.2,
    fun i hi => charWidthAt_two_iff units hvalid i hi,
    scanCharAt_length units⟩
  refine List.Chain'.imp ?_ hmain.1
  intro a b hab
  have := charWidthAt_pos units a
  omega

/-- C7 witness: the window `[104, 55357, 56832, 65]` (`h`, a surrogate
pair, `A`) consists of valid code units and satisfies the scan-loop
trace properties. -/
theorem scan_positions_witness :
    (∀ u ∈ ([104, 55357, 56832, 65] : List Nat), u < 65536) ∧
    (List.Chain' (fun p q => q = p + charWidthAt [104, 55357, 56832, 65] p)
      (visitedPositions [104, 55357, 56832, 65]) ∧
    List.Chain' (· < ·) (visitedPositions [104, 55357, 56832, 65]) ∧
    (visitedPositions [104, 55357, 56832, 65]).getLast? =
      some ([104, 55357, 56832, 65] : List Nat).length ∧
    (visitedPositions [104, 55357, 56832, 65]).count
      ([104, 55357, 56832, 65] : List Nat).length = 1 ∧
    (∀ i, i < ([104, 55357, 56832, 65] : List Nat).length →
      (charWidthAt [104, 55357, 56832, 65] i = 2 ↔
        (isHighSurrogate (([104, 55357, 56832, 65] : List Nat).getD i 0) =
          true ∧
          i + 1 < ([104, 55357, 56832, 65] : List Nat).length ∧
          isLowSurrogate
            (([104, 55357, 56832, 65] : List Nat).getD (i + 1) 0) = true))) ∧
    scanCharAt [104, 55357, 56832, 65]
      ([104, 55357, 56832, 65] : List Nat).length = 10) :=
  ⟨by decide, scan_positions_spec [104, 55357, 56832, 65] (by decide)⟩

/-- Modelled from the spec: the state of `LinkerCache` (in
`linkerCache.ts`, not under `src/`) — the dictionary its prefix
automaton was built from (the automaton is a pure function of the
dictionary) and the pending external-update flag set by change
notifications and consumed by `updateCache`. -/
structure CacheState where
  dict : List DictEntry
  dirty : Bool
deriving DecidableEq, Repr

/-- Modelled from the spec: `LinkerCache.updateCache(force)` — rebuild
the dictionary and automaton from the external store when a pending
external-update signal exists or `force` is set, clearing the flag;
otherwise do nothing. -/
def updateCache (store : List DictEntry) (force : Bool)
    (st : CacheState) : CacheState :=
  if st.dirty || force then ⟨store, false⟩ else st

/-- C8: with no intervening external-change notification, running the
cache update twice in succession leaves exactly the state reached after
the first run — and therefore every subsequent scan of the same text
yields an identical result set. -/
theorem updateCache_idem (store : List DictEntry) (force : Bool)
    (st : CacheState) :
    updateCache store force (updateCache store force st) =
      updateCache store force st ∧
    ∀ (mw : Bool) (excl : Option Nat) (base : Nat) (units : List Nat),
      scanCandidates
        (updateCache store force (updateCache store force st)).dict
        mw excl base units =
      scanCandidates (updateCache store force st).dict mw excl base units := by
  have h : updateCache store force (updateCache store force st) =
      updateCache store force st := by
    unfold updateCache
    by_cases hd : (st.dirty || force) = true
    · rw [if_pos hd]
      by_cases hf : force = true
      · rw [if_pos (by simp [hf])]
      · rw [if_neg (by simp [Bool.eq_false_iff.mpr hf])]
    · rw [if_neg hd, if_neg hd]
  exact ⟨h, fun mw excl base units => by rw [h]⟩

/-- The configuration options read by the linker variant's
`AutoLinkerPlugin.update` and `buildDecorations`. -/
structure Settings where
  matchOnlyWholeWords : Bool
  excludeLinksInCurrentLine : Bool
  excludeLinksToOwnNote : Bool
  includeHeaders : Bool
deriving DecidableEq, Repr

/-- One `ViewUpdate` as consumed by `AutoLinkerPlugin.update`: the main
selection head, the changed-flags, and (an id for) the updated view's
DOM element. -/
structure ViewEvent where
  cursorPos : Nat
  docChanged : Bool
  viewportChanged : Bool
  viewDom : Nat
deriving DecidableEq, Repr

/-- The host workspace facts `update` reads: whether a Markdown view is
active (and its content element), the active view's file, the active
file path, and the result of the `isDescendant` DOM walk. -/
structure HostCtx where
  activeViewContent : Option Nat
  activeViewFile : Option Nat
  activeFilePath : Option String
  domIsDescendant : Bool
deriving DecidableEq, Repr

/-- The mutable fields of the linker variant's `AutoLinkerPlugin` that
`update` touches: the recorded cursor position and file path, the last
view update, the decoration set (abstracted to its spans), the cache,
and the `viewUpdateDomToFileMap`. -/
structure PluginState where
  lastCursorPos : Nat
  lastActiveFile : String
  lastViewUpdate : Option ViewEvent
  decorations : List (Nat × Nat)
  cache : CacheState
  domMap : List (Nat × Option Nat)
deriving DecidableEq, Repr

/-- JavaScript `Map.prototype.set`: overwrite the entry for the key if
present, otherwise append it. -/
def setMap (m : List (Nat × Option Nat)) (k : Nat) (v : Option Nat) :
    List (Nat × Option Nat) :=
  if m.any fun p => p.1 == k then
    m.map fun p => if p.1 == k then (k, v) else p
  else m ++ [(k, v)]

/-- The linker variant's `AutoLinkerPlugin.update(update, force)`
(`src/linker/liveLinker.ts`, lines 136-165): record the dom-to-file
mapping when the update is on the active view and a contextual
exclusion setting needs it; then, when forced or the cursor, document,
active file or viewport changed, update the cache and rebuild the
decorations (`rebuild` stands for `buildDecorations` applied to the
updated view); finally store the last view update.  JavaScript's
`activeFile != this.lastActiveFile` is true whenever there is no active
file, since `lastActiveFile` is always a string. -/
def updateIsOnActiveView (settings : Settings) (host : HostCtx) : Bool :=
  if settings.excludeLinksInCurrentLine || settings.excludeLinksToOwnNote then
    match host.activeViewContent with
    | some _ => host.domIsDescendant
    | none => false
  else false

def updateDomMap (settings : Settings) (host : HostCtx) (ev : ViewEvent)
    (st : PluginState) : List (Nat × Option Nat) :=
  if (settings.excludeLinksInCurrentLine ||
      settings.excludeLinksToOwnNote) && updateIsOnActiveView settings host then
    setMap st.domMap ev.viewDom host.activeViewFile
  else st.domMap

def fileChanged (host : HostCtx) (st : PluginState) : Bool :=
  match host.activeFilePath with
  | some p => decide (p ≠ st.lastActiveFile)
  | none => true

def updateGuard (host : HostCtx) (ev : ViewEvent) (force : Bool)
    (st : PluginState) : Bool :=
  force || decide (st.lastCursorPos ≠ ev.cursorPos) || ev.docChanged ||
    fileChanged host st || ev.viewportChanged

def updateView (settings : Settings) (store : List DictEntry)
    (rebuild : Bool → List (Nat × Nat)) (host : HostCtx) (ev : ViewEvent)
    (force : Bool) (st : PluginState) : PluginState :=
  if updateGuard host ev force st then
    { lastCursorPos := ev.cursorPos,
      lastActiveFile := host.activeFilePath.getD "",
      lastViewUpdate := some ev,
      decorations := rebuild (updateIsOnActiveView settings host),
      cache := updateCache store force st.cache,
      domMap := updateDomMap settings host ev st }
  else
    { st with domMap := updateDomMap settings host ev st,
              lastViewUpdate := some ev }

def cexRebuild : Bool → List (Nat × Nat) := fun _ => [(0, 1)]

def cexSettings : Settings := ⟨false, true, false, true⟩

def cexHost : HostCtx := ⟨some 0, some 7, some "f.md", true⟩

def cexEvent : ViewEvent := ⟨5, false, false, 3⟩

def cexState : PluginState := ⟨5, "f.md", none, [], ⟨[], false⟩, []⟩

/-- C10 counterexample: a non-forced update with unchanged cursor,
document, active file and viewport does not merely store the last view
update — when a contextual exclusion setting is on and the update is on
the active view, it also records the view's DOM element in
`viewUpdateDomToFileMap`, so the resulting state differs from the
claimed frame. The decoration set itself is indeed unchanged. -/
theorem update_frame_cex :
    cexEvent.cursorPos = cexState.lastCursorPos ∧
    cexEvent.docChanged = false ∧
    cexHost.activeFilePath = some cexState.lastActiveFile ∧
    cexEvent.viewportChanged = false ∧
    updateView cexSettings [] cexRebuild cexHost cexEvent false cexState ≠
      { cexState with lastViewUpdate := some cexEvent } ∧
    (updateView cexSettings [] cexRebuild cexHost cexEvent false
      cexState).domMap = [(3, some 7)] ∧
    (updateView cexSettings [] cexRebuild cexHost cexEvent false
      cexState).decorations = cexState.decorations := by
  decide

/-- C10 amended: under the frame hypotheses (not forced; cursor,
document, active file and viewport unchanged) the handler leaves the
decoration set, the recorded cursor position, the recorded file path
and the cache untouched and stores the last view update; besides the
last-view-update reference, only `viewUpdateDomToFileMap` may change,
and only by recording the updated view's DOM element against the
active view's file. -/
theorem update_frame_amended (settings : Settings) (store : List DictEntry)
    (rebuild : Bool → List (Nat × Nat)) (host : HostCtx) (ev : ViewEvent)
    (st : PluginState)
    (hcur : ev.cursorPos = st.lastCursorPos)
    (hdoc : ev.docChanged = false)
    (hfile : host.activeFilePath = some st.lastActiveFile)
    (hvp : ev.viewportChanged = false) :
    (updateView settings store rebuild host ev false st).decorations =
      st.decorations ∧
    (updateView settings store rebuild host ev false st).cache = st.cache ∧
    (updateView settings store rebuild host ev false st).lastCursorPos =
      st.lastCursorPos ∧
    (updateView settings store rebuild host ev false st).lastActiveFile =
      st.lastActiveFile ∧
    (updateView settings store rebuild host ev false st).lastViewUpdate =
      some ev ∧
    ((updateView settings store rebuild host ev false st).domMap =
        st.domMap ∨
      (updateView settings store rebuild host ev false st).domMap =
        setMap st.domMap ev.viewDom host.activeViewFile) := by
  have hguard : updateGuard host ev false st = false := by
    unfold updateGuard fileChanged
    rw [hfile, hdoc, hvp, hcur]
    simp
  unfold updateView
  rw [hguard]
  simp only [Bool.false_eq_true, if_false]
  refine ⟨trivial, trivial, trivial, trivial, trivial, ?_⟩
  unfold updateDomMap
  by_cases hmap : ((settings.excludeLinksInCurrentLine ||
      settings.excludeLinksToOwnNote) &&
      updateIsOnActiveView settings host) = true
  · rw [if_pos hmap]
    right
    rfl
  · rw [if_neg hmap]
    left
    rfl

/-- C10 amended witness: the counterexample scenario satisfies the
amended frame description. -/
theorem update_frame_witness :
    ((cexEvent.cursorPos = cexState.lastCursorPos) ∧
      (cexEvent.docChanged = false) ∧
      (cexHost.activeFilePath = some cexState.lastActiveFile) ∧
      (cexEvent.viewportChanged = false)) ∧
    ((updateView cexSettings [] cexRebuild cexHost cexEvent false
        cexState).decorations = cexState.decorations ∧
      (updateView cexSettings [] cexRebuild cexHost cexEvent false
        cexState).cache = cexState.cache ∧
      (updateView cexSettings [] cexRebuild cexHost cexEvent false
        cexState).lastCursorPos = cexState.lastCursorPos ∧
      (updateView cexSettings [] cexRebuild cexHost cexEvent false
        cexState).lastActiveFile = cexState.lastActiveFile ∧
      (updateView cexSettings [] cexRebuild cexHost cexEvent false
        cexState).lastViewUpdate = some cexEvent ∧
      ((updateView cexSettings [] cexRebuild cexHost cexEvent false
          cexState).domMap = cexState.domMap ∨
        (updateView cexSettings [] cexRebuild cexHost cexEvent false
          cexState).domMap =
          setMap cexState.domMap cexEvent.viewDom
            cexHost.activeViewFile)) :=
  ⟨⟨by decide, by decide, by decide, by decide⟩,
    update_frame_amended cexSettings [] cexRebuild cexHost cexEvent cexState
      (by decide) (by decide) (by decide) (by decide)⟩
